import Mathlib

/-!
Verification development for the documentation-inventory tool
(source file: scripts/docs-list.ts).

The embedding models JavaScript strings as lists of characters
(abbreviated Str below).  Pure helper functions of the script
(trimming, splitting, searching, the front-matter state machine, the
tree walker, the directory resolver and the report loop) are
translated directly from the source.  Platform builtins used by the
script (String.prototype methods, JSON.parse, node path functions,
Array.prototype.sort) are modelled by executable Lean functions whose
behaviour on the inputs relevant here matches the builtin; each model
carries a comment naming the builtin it stands for.
-/

set_option maxRecDepth 10000

abbrev Str : Type := List Char

/-- The single-quote character, written by code point to keep the file plain. -/
def squote : Char := Char.ofNat 39

/-- The double-quote character. -/
def dquote : Char := '"'

/-- The forward slash used as the path separator. -/
def slashC : Char := '/'

/-- The newline character. -/
def nlC : Char := '\n'

/-- The opening curly bracket, written by code point. -/
def lbrace : Char := Char.ofNat 123

/-- The closing curly bracket, written by code point. -/
def rbrace : Char := Char.ofNat 125

/-- Model of the JavaScript whitespace class (the class matched by the
regular expression class backslash-s, which is also the set trimmed by
String.prototype.trim). -/
def jsIsSpace (c : Char) : Bool :=
  c == ' ' || c == '\t' || c == '\n' || c == '\r' ||
  c.toNat == 0x0B || c.toNat == 0x0C || c.toNat == 0xA0 || c.toNat == 0x1680 ||
  (0x2000 ≤ c.toNat && c.toNat ≤ 0x200A) || c.toNat == 0x2028 || c.toNat == 0x2029 ||
  c.toNat == 0x202F || c.toNat == 0x205F || c.toNat == 0x3000 || c.toNat == 0xFEFF

/-- Model of String.prototype.trim: drop whitespace at both ends. -/
def jsTrim (s : Str) : Str :=
  ((s.dropWhile jsIsSpace).reverse.dropWhile jsIsSpace).reverse

/-- Model of String.prototype.startsWith: the second argument is an
initial segment of the first. -/
def strStartsWith : Str → Str → Bool
  | _, [] => true
  | [], _ :: _ => false
  | c :: s, p :: ps => c == p && strStartsWith s ps

/-- Model of String.prototype.endsWith. -/
def strEndsWith (s p : Str) : Bool :=
  strStartsWith s.reverse p.reverse

/-- Model of String.prototype.split with a newline separator: empty
segments are kept, and the empty string splits to one empty segment. -/
def splitLines : Str → List Str
  | [] => [[]]
  | '\n' :: rest => [] :: splitLines rest
  | c :: rest =>
    match splitLines rest with
    | [] => [[c]]
    | h :: t => (c :: h) :: t

/-- Splitting on an arbitrary separator character, used to talk about
the segments of a slash-separated relative path. -/
def splitOnChar (sep : Char) : Str → List Str
  | [] => [[]]
  | c :: rest =>
    if c == sep then [] :: splitOnChar sep rest
    else
      match splitOnChar sep rest with
      | [] => [[c]]
      | h :: t => (c :: h) :: t

/-- Scanning helper for indexOfFrom: the counter records the absolute
index of the current position. -/
def indexOfFromAux (pat : Str) : Str → Nat → Option Nat
  | [], i => if strStartsWith [] pat then some i else none
  | c :: t, i =>
    if strStartsWith (c :: t) pat then some i else indexOfFromAux pat t (i + 1)

/-- Model of String.prototype.indexOf with a start offset: the least
index, at least the offset, at which the pattern occurs. -/
def indexOfFrom (pat s : Str) (start : Nat) : Option Nat :=
  indexOfFromAux pat (s.drop start) start

/-- True when the pattern occurs somewhere in the string. -/
def strContains (s pat : Str) : Bool :=
  (indexOfFrom pat s 0).isSome

/-- Model of Array.prototype.join generalised to an arbitrary separator
string. -/
def joinSep (sep : Str) : List Str → Str
  | [] => []
  | [s] => s
  | s :: rest => s ++ sep ++ joinSep sep rest

/-- Helper for collapseWs; the flag records whether the previous
character was whitespace (and was therefore already emitted as the
single space standing for the whole run). -/
def collapseWsAux : Bool → Str → Str
  | _, [] => []
  | prevWs, c :: rest =>
    if jsIsSpace c then
      if prevWs then collapseWsAux true rest
      else ' ' :: collapseWsAux true rest
    else c :: collapseWsAux false rest

/-- Model of replacing every maximal whitespace run by a single space
(the replace call with the global whitespace-run pattern in the
summary normalisation of extractMetadata, line 190 of the source). -/
def collapseWs (s : Str) : Str := collapseWsAux false s

/-- True for the two quote characters recognised by the summary
normalisation. -/
def jsIsQuote (c : Char) : Bool := c == squote || c == dquote

/-- Drop one leading quote character when present. -/
def dropLeadingQuote : Str → Str
  | [] => []
  | c :: rest => if jsIsQuote c then rest else c :: rest

/-- Drop one trailing quote character when present. -/
def dropTrailingQuote (s : Str) : Str :=
  (dropLeadingQuote s.reverse).reverse

/-- Model of the replace call with the global anchored-quote pattern in
extractMetadata (line 189 of the source).  The global pattern removes a
quote at position zero when present and, independently, a quote at the
final position when one remains; that is exactly one leading drop
followed by one trailing drop. -/
def stripEdgeQuotes (s : Str) : Str :=
  dropTrailingQuote (dropLeadingQuote s)

/-! ## JSON values and a model of JSON.parse

extractMetadata hands inline read_when lists to JSON.parse after
replacing every single quote by a double quote.  The parser below is a
plain recursive-descent JSON reader over character lists; number
tokens keep their source lexeme (the script never does arithmetic on
parsed numbers, it only stringifies them). -/

inductive JsValue where
  | jnull : JsValue
  | jbool : Bool → JsValue
  | jnum : Str → JsValue
  | jstr : Str → JsValue
  | jarr : List JsValue → JsValue
  | jobj : List (Str × JsValue) → JsValue

/-- Whitespace accepted between JSON tokens. -/
def jsonWsChar (c : Char) : Bool :=
  c == ' ' || c == '\t' || c == '\n' || c == '\r'

def skipJsonWs (s : Str) : Str := s.dropWhile jsonWsChar

/-- Value of one hexadecimal digit. -/
def hexDigitVal (c : Char) : Option Nat :=
  if '0' ≤ c ∧ c ≤ '9' then some (c.toNat - 48)
  else if 'a' ≤ c ∧ c ≤ 'f' then some (c.toNat - 87)
  else if 'A' ≤ c ∧ c ≤ 'F' then some (c.toNat - 55)
  else none

/-- Body of a JSON string after the opening double quote; returns the
decoded characters and the remainder after the closing quote.  A
backslash-u escape denoting an invalid scalar value decodes to the
null character (the embedding does not model UTF-16 surrogate pairs;
no claim depends on them). -/
def parseStringBody : Str → Option (Str × Str)
  | [] => none
  | '"' :: rest => some ([], rest)
  | '\\' :: rest =>
    match rest with
    | '"' :: r => (parseStringBody r).map (fun p => ('"' :: p.1, p.2))
    | '\\' :: r => (parseStringBody r).map (fun p => ('\\' :: p.1, p.2))
    | '/' :: r => (parseStringBody r).map (fun p => ('/' :: p.1, p.2))
    | 'b' :: r => (parseStringBody r).map (fun p => (Char.ofNat 8 :: p.1, p.2))
    | 'f' :: r => (parseStringBody r).map (fun p => (Char.ofNat 12 :: p.1, p.2))
    | 'n' :: r => (parseStringBody r).map (fun p => ('\n' :: p.1, p.2))
    | 'r' :: r => (parseStringBody r).map (fun p => ('\r' :: p.1, p.2))
    | 't' :: r => (parseStringBody r).map (fun p => ('\t' :: p.1, p.2))
    | 'u' :: h1 :: h2 :: h3 :: h4 :: r =>
      match hexDigitVal h1, hexDigitVal h2, hexDigitVal h3, hexDigitVal h4 with
      | some a, some b, some c, some d =>
        (parseStringBody r).map
          (fun p => (Char.ofNat (4096 * a + 256 * b + 16 * c + d) :: p.1, p.2))
      | _, _, _, _ => none
    | _ => none
  | c :: rest =>
    if c.toNat < 0x20 then none
    else (parseStringBody rest).map (fun p => (c :: p.1, p.2))

/-- Longest digit run at the front of the string, and the remainder. -/
def digitSpan (s : Str) : Str × Str :=
  (s.takeWhile Char.isDigit, s.dropWhile Char.isDigit)

/-- Optional fraction part of a JSON number. -/
def parseFracPart : Str → Option (Str × Str)
  | '.' :: r =>
    let p := digitSpan r
    if p.1.isEmpty then none else some ('.' :: p.1, p.2)
  | s => some ([], s)

/-- Optional exponent part of a JSON number. -/
def parseExpPart : Str → Option (Str × Str)
  | [] => some ([], [])
  | c :: r =>
    if c == 'e' || c == 'E' then
      let q : Str × Str :=
        match r with
        | '+' :: rr => (['+'], rr)
        | '-' :: rr => (['-'], rr)
        | _ => ([], r)
      let p := digitSpan q.2
      if p.1.isEmpty then none else some (c :: q.1 ++ p.1, p.2)
    else some ([], c :: r)

/-- Lexeme of a JSON number at the front of the string. -/
def parseNumLex (s : Str) : Option (Str × Str) :=
  let q : Str × Str :=
    match s with
    | '-' :: r => (['-'], r)
    | _ => ([], s)
  match q.2 with
  | [] => none
  | c :: r =>
    let intRes : Option (Str × Str) :=
      if c == '0' then some (q.1 ++ ['0'], r)
      else if c.isDigit then
        let p := digitSpan r
        some (q.1 ++ c :: p.1, p.2)
      else none
    match intRes with
    | none => none
    | some (ilex, rest) =>
      match parseFracPart rest with
      | none => none
      | some (flex, rest2) =>
        match parseExpPart rest2 with
        | none => none
        | some (elex, rest3) => some (ilex ++ flex ++ elex, rest3)

mutual

/-- One JSON value at the front of the string (no leading whitespace);
the fuel bounds the recursion depth and is chosen generously by the
top-level entry point. -/
def parseJsonValue : Nat → Str → Option (JsValue × Str)
  | 0, _ => none
  | Nat.succ fuel, s =>
    match s with
    | 'n' :: 'u' :: 'l' :: 'l' :: r => some (.jnull, r)
    | 't' :: 'r' :: 'u' :: 'e' :: r => some (.jbool true, r)
    | 'f' :: 'a' :: 'l' :: 's' :: 'e' :: r => some (.jbool false, r)
    | '"' :: r =>
      match parseStringBody r with
      | some (cs, rem) => some (.jstr cs, rem)
      | none => none
    | '[' :: r =>
      match skipJsonWs r with
      | ']' :: rem => some (.jarr [], rem)
      | r1 =>
        match parseJsonElems fuel r1 with
        | some (vs, rem) => some (.jarr vs, rem)
        | none => none
    | c :: r =>
      if c == lbrace then
        match skipJsonWs r with
        | [] => none
        | c1 :: rem1 =>
          if c1 == rbrace then some (.jobj [], rem1)
          else
            match parseJsonMembers fuel (c1 :: rem1) with
            | some (ms, rem) => some (.jobj ms, rem)
            | none => none
      else
        match parseNumLex (c :: r) with
        | some (lex, rem) => some (.jnum lex, rem)
        | none => none
    | [] => none

/-- Comma-separated JSON array elements up to the closing bracket. -/
def parseJsonElems : Nat → Str → Option (List JsValue × Str)
  | 0, _ => none
  | Nat.succ fuel, s =>
    match parseJsonValue fuel s with
    | none => none
    | some (v, r) =>
      match skipJsonWs r with
      | ',' :: r2 =>
        match parseJsonElems fuel (skipJsonWs r2) with
        | some (vs, rem) => some (v :: vs, rem)
        | none => none
      | ']' :: rem => some ([v], rem)
      | _ => none

/-- Comma-separated JSON object members up to the closing bracket. -/
def parseJsonMembers : Nat → Str → Option (List (Str × JsValue) × Str)
  | 0, _ => none
  | Nat.succ fuel, s =>
    match s with
    | '"' :: r =>
      match parseStringBody r with
      | none => none
      | some (key, r1) =>
        match skipJsonWs r1 with
        | ':' :: r2 =>
          match parseJsonValue fuel (skipJsonWs r2) with
          | none => none
          | some (v, r3) =>
            match skipJsonWs r3 with
            | ',' :: r4 =>
              match parseJsonMembers fuel (skipJsonWs r4) with
              | some (ms, rem) => some ((key, v) :: ms, rem)
              | none => none
            | c5 :: rem =>
              if c5 == rbrace then some ([(key, v)], rem) else none
            | [] => none
        | _ => none
    | _ => none

end

/-- Model of JSON.parse: leading and trailing whitespace is allowed
around exactly one JSON text.  Every unit of fuel spent by the value
and element readers is preceded by at least one consumed character, so
twice the length plus two is always enough fuel. -/
def jsonParse (s : Str) : Option JsValue :=
  match parseJsonValue (2 * s.length + 2) (skipJsonWs s) with
  | some (v, rest) => if (skipJsonWs rest).isEmpty then some v else none
  | none => none

mutual

/-- Model of the JavaScript String() conversion on values produced by
JSON.parse.  Number lexemes are kept verbatim (an abstraction of the
JavaScript number-to-string algorithm; no claim involves numeric
elements). -/
def jsToString : JsValue → Str
  | .jnull => 'n' :: 'u' :: 'l' :: 'l' :: []
  | .jbool true => 't' :: 'r' :: 'u' :: 'e' :: []
  | .jbool false => 'f' :: 'a' :: 'l' :: 's' :: 'e' :: []
  | .jnum lex => lex
  | .jstr s => s
  | .jarr xs => jsArrToString xs
  | .jobj _ => "[object Object]".toList

/-- Array stringification: elements joined with commas, null elements
contributing the empty string. -/
def jsArrToString : List JsValue → Str
  | [] => []
  | [v] =>
    (match v with
     | .jnull => []
     | w => jsToString w)
  | v :: vs =>
    (match v with
     | .jnull => []
     | w => jsToString w) ++ ',' :: jsArrToString vs

end

/-- Model of compactStrings (source lines 88 to 100): drop null values,
stringify and trim the rest, and keep the non-empty results in order. -/
def compactStrings : List JsValue → List Str
  | [] => []
  | v :: vs =>
    match v with
    | .jnull => compactStrings vs
    | w =>
      let normalized := jsTrim (jsToString w)
      if normalized.isEmpty then compactStrings vs
      else normalized :: compactStrings vs

/-- Model of the replace call turning every single quote into a double
quote before the JSON.parse of an inline list (source line 159). -/
def replaceSQuotes (s : Str) : Str :=
  s.map (fun c => if c == squote then dquote else c)

/-- The attempted parse of an inline read_when list (source lines 158
to 165): quote normalisation, JSON.parse, and the array check.  A parse
failure and a non-array result both yield none, which the state machine
silently ignores. -/
def parseInlineList (inline : Str) : Option (List JsValue) :=
  match jsonParse (replaceSQuotes inline) with
  | some (.jarr xs) => some xs
  | _ => none

/-! ## The front-matter extractor (extractMetadata, source lines 122 to 198) -/

/-- The diagnostic reasons of extractMetadata, one constructor per
string literal the source stores in the error field. -/
inductive ExtractError where
  | missingFrontMatter : ExtractError
  | unterminatedFrontMatter : ExtractError
  | summaryKeyMissing : ExtractError
  | summaryEmpty : ExtractError
deriving DecidableEq, Repr

/-- The exact diagnostic string of the source for each reason. -/
def errorMessage : ExtractError → Str
  | .missingFrontMatter => "missing front matter".toList
  | .unterminatedFrontMatter => "unterminated front matter".toList
  | .summaryKeyMissing => "summary key missing".toList
  | .summaryEmpty => "summary is empty".toList

/-- The value extractMetadata returns for one file: the summary (none
on failure), the collected read_when hints, and the optional error. -/
structure ExtractResult where
  summary : Option Str
  readWhen : List Str
  error : Option ExtractError
deriving DecidableEq, Repr

/-- The loop state of extractMetadata: the last summary line seen, the
hints collected so far, and whether a read_when list is being
collected (the collectingField variable; read_when is its only
possible non-null value). -/
structure ExtractState where
  summaryLine : Option Str
  readWhen : List Str
  collecting : Bool
deriving DecidableEq, Repr

def initState : ExtractState := { summaryLine := none, readWhen := [], collecting := false }

def summaryKey : Str := ['s', 'u', 'm', 'm', 'a', 'r', 'y', ':']

def readWhenKey : Str := ['r', 'e', 'a', 'd', '_', 'w', 'h', 'e', 'n', ':']

def threeDashes : Str := ['-', '-', '-']

def nlDashes : Str := ['\n', '-', '-', '-']

/-- One iteration of the line loop of extractMetadata (source lines 145
to 181), parameterised by the inline-list parse so that independence
from its outcome can be stated. -/
def stepLine (parse : Str → Option (List JsValue)) (s : ExtractState) (rawLine : Str) :
    ExtractState :=
  let line := jsTrim rawLine
  if strStartsWith line summaryKey then
    { s with summaryLine := some line, collecting := false }
  else if strStartsWith line readWhenKey then
    let inline := jsTrim (line.drop readWhenKey.length)
    if strStartsWith inline ['['] && strEndsWith inline [']'] then
      match parse inline with
      | some vs => { s with collecting := true, readWhen := s.readWhen ++ compactStrings vs }
      | none => { s with collecting := true }
    else { s with collecting := true }
  else if s.collecting then
    if strStartsWith line ['-', ' '] then
      let hint := jsTrim (line.drop 2)
      if hint.isEmpty then s else { s with readWhen := s.readWhen ++ [hint] }
    else if line.isEmpty then s
    else { s with collecting := false }
  else s

/-- The whole line loop. -/
def processLines (parse : Str → Option (List JsValue)) :
    List Str → ExtractState → ExtractState
  | [], s => s
  | l :: ls, s => processLines parse ls (stepLine parse s l)

/-- Summary normalisation (source lines 187 to 191): take the text
after the key, trim it, strip edge quotes, collapse whitespace runs
and trim again. -/
def normalizeSummary (summaryLine : Str) : Str :=
  jsTrim (collapseWs (stripEdgeQuotes (jsTrim (summaryLine.drop summaryKey.length))))

/-- The tail of extractMetadata after the loop (source lines 183 to
197): missing key, empty normalised summary, or success. -/
def mkFinal (st : ExtractState) : ExtractResult :=
  match st.summaryLine with
  | none => { summary := none, readWhen := st.readWhen, error := some .summaryKeyMissing }
  | some sl =>
    let normalized := normalizeSummary sl
    if normalized.isEmpty then
      { summary := none, readWhen := st.readWhen, error := some .summaryEmpty }
    else
      { summary := some normalized, readWhen := st.readWhen, error := none }

/-- extractMetadata on the content of one file (source lines 122 to
198).  Reading the file itself is not modelled; the function takes the
content directly. -/
def extractMetadata (content : Str) : ExtractResult :=
  if !(strStartsWith content threeDashes) then
    { summary := none, readWhen := [], error := some .missingFrontMatter }
  else
    match indexOfFrom nlDashes content 3 with
    | none => { summary := none, readWhen := [], error := some .unterminatedFrontMatter }
    | some endIndex =>
      mkFinal (processLines parseInlineList
        (splitLines (jsTrim ((content.take endIndex).drop 3))) initState)

/-- The logical lines of a well-delimited front-matter block, when the
two delimiters are found; exactly the list the loop of extractMetadata
iterates over. -/
def frontMatterLines (content : Str) : Option (List Str) :=
  if !(strStartsWith content threeDashes) then none
  else
    match indexOfFrom nlDashes content 3 with
    | none => none
    | some endIndex => some (splitLines (jsTrim ((content.take endIndex).drop 3)))

/-- The hints the loop of extractMetadata collects for a given content:
empty when the delimiters are not found (the loop never runs), and the
readWhen component of the final loop state otherwise. -/
def collectedHints (content : Str) : List Str :=
  match frontMatterLines content with
  | none => []
  | some ls => (processLines parseInlineList ls initState).readWhen

/-- A line whose trimmed form begins with the summary key; the filter
used to speak about which summary line wins. -/
def isSummaryLine (l : Str) : Bool :=
  strStartsWith (jsTrim l) summaryKey

/-! ## The report loop (source lines 204 to 216) -/

/-- The bracketed reason appended to the path of a failing file, empty
when no reason is available. -/
def reasonSuffix : Option ExtractError → Str
  | some e => " - [".toList ++ errorMessage e ++ "]".toList
  | none => []

/-- The report lines emitted for one file (source lines 204 to 216).
A truthy summary yields the path-and-summary line, followed by the
indented hints line when hints were collected; otherwise only the path
with the optional bracketed reason is printed. -/
def reportFor (path : Str) (r : ExtractResult) : List Str :=
  match r.summary with
  | some s =>
    if s.isEmpty then [path ++ reasonSuffix r.error]
    else
      (path ++ " - ".toList ++ s) ::
        (if r.readWhen.isEmpty then []
         else ["  Read when: ".toList ++ joinSep "; ".toList r.readWhen])
  | none => [path ++ reasonSuffix r.error]

/-! ## The tree walker (walkMarkdownFiles, source lines 102 to 120)

A directory tree is a list of named entries; the third constructor
stands for directory entries that are neither regular files nor
directories (the walker skips them).  Entry names come from
readdirSync and therefore never contain a path separator; validity of
a tree records exactly that.  The locale-sensitive comparison of
localeCompare is kept abstract as a boolean relation, and
Array.prototype.sort with a comparator is modelled by insertion
sort. -/

inductive FsEntry where
  | file : Str → FsEntry
  | dir : Str → List FsEntry → FsEntry
  | otherEntry : Str → FsEntry

/-- The fixed exclusion set of directory names (source line 86). -/
def EXCLUDED_DIRS : List Str := ["archive".toList, "research".toList]

def mdSuffix : Str := ".md".toList

/-- Stable insertion of one element into a list sorted by the given
comparison. -/
def insertSorted (le : Str → Str → Bool) (x : Str) : List Str → List Str
  | [] => [x]
  | y :: ys => if le y x then y :: insertSorted le x ys else x :: y :: ys

/-- Model of Array.prototype.sort with the localeCompare comparator:
insertion sort by the abstract comparison. -/
def sortStrs (le : Str → Str → Bool) : List Str → List Str
  | [] => []
  | x :: xs => insertSorted le x (sortStrs le xs)

mutual

/-- The relative paths contributed by one directory entry, given the
relative prefix of the directory that holds it (empty at the root,
otherwise ending with a slash).  Hidden entries are skipped, excluded
directory names are not descended into, and only file names ending in
the markdown suffix are kept (source lines 105 to 118). -/
def walkEntry (le : Str → Str → Bool) (pfx : Str) : FsEntry → List Str
  | .file name =>
    if strStartsWith name ['.'] then []
    else if strEndsWith name mdSuffix then [pfx ++ name]
    else []
  | .dir name children =>
    if strStartsWith name ['.'] then []
    else if name ∈ EXCLUDED_DIRS then []
    else sortStrs le (walkChildren le (pfx ++ name ++ [slashC]) children)
  | .otherEntry _ => []

/-- The concatenated contributions of a list of entries, in directory
order. -/
def walkChildren (le : Str → Str → Bool) (pfx : Str) : List FsEntry → List Str
  | [] => []
  | e :: es => walkEntry le pfx e ++ walkChildren le pfx es

end

/-- walkMarkdownFiles on the children of the docs root: every recursion
level sorts its accumulated list, the top level included (source line
119). -/
def walkMarkdownFiles (le : Str → Str → Bool) (entries : List FsEntry) : List Str :=
  sortStrs le (walkChildren le [] entries)

mutual

/-- Modelled from the spec: the collected relative paths of one entry
in traversal order, without any sorting.  This is the companion
definition the sortedness claim compares the walker against. -/
def specCollectEntry (pfx : Str) : FsEntry → List Str
  | .file name =>
    if strStartsWith name ['.'] then []
    else if strEndsWith name mdSuffix then [pfx ++ name]
    else []
  | .dir name children =>
    if strStartsWith name ['.'] then []
    else if name ∈ EXCLUDED_DIRS then []
    else specCollectChildren (pfx ++ name ++ [slashC]) children
  | .otherEntry _ => []

/-- Modelled from the spec: traversal-order collection over a list of
entries. -/
def specCollectChildren (pfx : Str) : List FsEntry → List Str
  | [] => []
  | e :: es => specCollectEntry pfx e ++ specCollectChildren pfx es

end

/-- A name is valid when it does not contain the path separator;
readdirSync never produces such names. -/
def nameOk (n : Str) : Bool := decide (slashC ∉ n)

mutual

/-- Validity of a tree: every name in it is separator-free. -/
def entryValid : FsEntry → Bool
  | .file n => nameOk n
  | .dir n cs => nameOk n && childrenValid cs
  | .otherEntry n => nameOk n

def childrenValid : List FsEntry → Bool
  | [] => true
  | e :: es => entryValid e && childrenValid es

end

/-! ## The directory resolver (source lines 11 to 82)

The resolver is a pure function of the process arguments, the two
environment variables, the current working directory, the repository
root, and the filesystem-existence oracle.  Absolute paths are lists
of name segments; process.cwd() and the repository root are absolute
and normalised, so path.relative is segment arithmetic on them.  The
resolution of arbitrary user-supplied strings by path.resolve is kept
abstract as a function of the environment record, since no claim
depends on it. -/

structure ResolveEnv where
  args : List Str
  docsDirEnv : Option Str
  docsRootEnv : Option Str
  cwd : List Str
  repoRoot : List Str
  fsExists : List Str → Bool
  resolvePath : Str → List Str

/-- The four ways resolveDocsDir can end: the help exit, the fatal
missing-flag-value exit, a resolved directory, or the fatal
not-found exit. -/
inductive ResolveOutcome where
  | help : ResolveOutcome
  | flagUsageError : Str → ResolveOutcome
  | dirResolved : List Str → ResolveOutcome
  | fatalError : ResolveOutcome
deriving DecidableEq, Repr

/-- Index of the first occurrence of an element. -/
def idxOf : List Str → Str → Option Nat
  | [], _ => none
  | x :: xs, f => if x = f then some 0 else (idxOf xs f).map (· + 1)

/-- Model of readFlagValue (source lines 11 to 21): none when the flag
is absent, the empty string when its value is missing or looks like
another flag, the value otherwise. -/
def readFlagValue (args : List Str) (flag : Str) : Option Str :=
  match idxOf args flag with
  | none => none
  | some idx =>
    match args.get? (idx + 1) with
    | none => some []
    | some v => if v.isEmpty || strStartsWith v ['-'] then some [] else some v

def docsSeg : Str := "docs".toList

def upSeg : Str := "..".toList

/-- Model of path.relative on absolute normalised paths: drop the
longest common segment run, then one up-segment per remaining source
segment followed by the remaining target segments. -/
def commonPrefixLen : List Str → List Str → Nat
  | a :: as_, b :: bs =>
    if a = b then commonPrefixLen as_ bs + 1 else 0
  | _, _ => 0

def relativeSegs (fromP toP : List Str) : List Str :=
  List.replicate (fromP.length - commonPrefixLen fromP toP) upSeg ++
    toP.drop (commonPrefixLen fromP toP)

def relativePath (fromP toP : List Str) : Str :=
  joinSep [slashC] (relativeSegs fromP toP)

/-- isInsideRepoRoot (source lines 23 to 26), including the redundant
second conjunct of the source. -/
def isInsideRepoRoot (repoRoot cwd : List Str) : Bool :=
  let rel := relativePath repoRoot cwd
  rel.isEmpty || (!(strStartsWith rel upSeg) && !(strStartsWith rel (upSeg ++ [slashC])))

/-- resolveDocsDir (source lines 28 to 82) as a pure function of the
resolver environment, one branch per resolution step of the source. -/
def resolveDocsDir (env : ResolveEnv) : ResolveOutcome :=
  if "--help".toList ∈ env.args ∨ "-h".toList ∈ env.args then .help
  else
    match readFlagValue env.args "--docs".toList with
    | some v =>
      if v.isEmpty then .flagUsageError "--docs".toList
      else .dirResolved (env.resolvePath v)
    | none =>
      match readFlagValue env.args "--root".toList with
      | some v =>
        if v.isEmpty then .flagUsageError "--root".toList
        else .dirResolved (env.resolvePath v ++ [docsSeg])
      | none =>
        let docsDirEnvT := match env.docsDirEnv with | some r => jsTrim r | none => []
        if !docsDirEnvT.isEmpty then .dirResolved (env.resolvePath docsDirEnvT)
        else
          let docsRootEnvT := match env.docsRootEnv with | some r => jsTrim r | none => []
          if !docsRootEnvT.isEmpty then .dirResolved (env.resolvePath docsRootEnvT ++ [docsSeg])
          else
            let cwdDocs := env.cwd ++ [docsSeg]
            if env.fsExists cwdDocs then .dirResolved cwdDocs
            else
              let repoDocs := env.repoRoot ++ [docsSeg]
              if isInsideRepoRoot env.repoRoot env.cwd && env.fsExists repoDocs then
                .dirResolved repoDocs
              else .fatalError

/-! ## Concrete instances used by the claim theorems -/

/-- Join a list of lines into one content string with newlines. -/
def mkLines (ls : List Str) : Str := joinSep [nlC] ls

/-- A file whose front matter has hints but no summary line. -/
def c1badContent : Str :=
  mkLines [threeDashes, "read_when:".toList, "- zq".toList, threeDashes, []]

/-- The round-trip block of the spec: a single-quoted summary and two
multi-line hints, one of them double-quoted. -/
def c2content : Str :=
  mkLines [threeDashes,
    "summary: ".toList ++ squote :: ("Handles OAuth flows".toList ++ [squote]),
    "read_when:".toList, "- \"auth changes\"".toList, "- tests".toList,
    threeDashes, []]

/-- A well-delimited block whose summary value is three double quotes. -/
def c3badContent : Str :=
  mkLines [threeDashes, "summary: ".toList ++ [dquote, dquote, dquote], threeDashes, []]

/-- A well-delimited block whose summary value is two double quotes. -/
def c3twoQuoteContent : Str :=
  mkLines [threeDashes, "summary: ".toList ++ [dquote, dquote], threeDashes, []]

/-- A content whose first line is four dashes, so it does not begin
with a line consisting of exactly three dashes, yet begins with the
three characters of the delimiter. -/
def c4badContent : Str :=
  mkLines [['-', '-', '-', '-'], "summary: x".toList, threeDashes, []]

/-- Modelled from the spec: the content begins with a line consisting
of exactly three dashes.  This is the delimiter condition as the claim
words it, to be compared with the prefix test of the source. -/
def beginsWithExactDashLine (c : Str) : Bool :=
  (splitLines c).headD [] == threeDashes

/-- A block with an inline single-quoted read_when list. -/
def c8content : Str :=
  mkLines [threeDashes, "summary: ok".toList,
    "read_when: [".toList ++ [squote, 'a', squote, ',', ' ', squote, 'b', squote, ']'],
    threeDashes, []]

/-- A block with two summary lines. -/
def c10content : Str :=
  mkLines [threeDashes, "summary: first".toList, "summary: second".toList, threeDashes, []]

/-- A read_when line whose inline remainder is a malformed bracketed
list (an unterminated string inside the brackets). -/
def c5line : Str := "read_when: [".toList ++ [dquote, 'a', ']']

/-- A concrete total comparison on character lists (code-point
lexicographic), standing in for one fixed locale ordering when the
claim theorems about the walker are instantiated. -/
def byteLe (a b : Str) : Bool := decide (a ≤ b)

/-- A small directory tree exercising exclusion, hidden entries,
nesting and non-file entries. -/
def demoTree : List FsEntry :=
  [FsEntry.dir "archive".toList [FsEntry.file "secret.md".toList],
   FsEntry.file ".hidden.md".toList,
   FsEntry.file "b.md".toList,
   FsEntry.dir "sub".toList [FsEntry.file "a.md".toList, FsEntry.file "notes.txt".toList],
   FsEntry.file "a.md".toList,
   FsEntry.otherEntry "link.md".toList]

/-- A resolver environment in which only the repository-default step
can fire: no flags, no environment variables, no docs directory under
the current working directory, and a current working directory
strictly below the repository root. -/
def envW : ResolveEnv :=
  { args := [],
    docsDirEnv := none,
    docsRootEnv := none,
    cwd := ["home".toList, "repo".toList, "sub".toList],
    repoRoot := ["home".toList, "repo".toList],
    fsExists := fun p => decide (p = ["home".toList, "repo".toList, "docs".toList]),
    resolvePath := fun _ => [] }

/-! ## Helper lemmas: strings and searching -/

theorem strStartsWith_append (p t : Str) : strStartsWith (p ++ t) p = true := by
  induction p with
  | nil => cases t <;> simp [strStartsWith]
  | cons c cs ih => simp [strStartsWith, ih]

theorem strStartsWith_nil_iff (p : Str) : strStartsWith [] p = true ↔ p = [] := by
  cases p <;> simp [strStartsWith]

theorem splitOnChar_ne_nil (sep : Char) (s : Str) : splitOnChar sep s ≠ [] := by
  induction s with
  | nil => simp [splitOnChar]
  | cons c rest ih =>
    simp only [splitOnChar]
    split
    · simp
    · cases h : splitOnChar sep rest with
      | nil => exact absurd h ih
      | cons a b => simp

theorem splitOnChar_no_sep (sep : Char) (s : Str) (h : sep ∉ s) :
    splitOnChar sep s = [s] := by
  induction s with
  | nil => simp [splitOnChar]
  | cons c rest ih =>
    simp only [List.mem_cons, not_or] at h
    have hne : (c == sep) = false := by
      simp only [beq_eq_false_iff_ne, ne_eq]
      exact fun hc => h.1 hc.symm
    have hrest := ih h.2
    simp [splitOnChar, hrest, hne]

theorem splitOnChar_append_sep (sep : Char) (xs ys : Str) (h : sep ∉ xs) :
    splitOnChar sep (xs ++ sep :: ys) = xs :: splitOnChar sep ys := by
  induction xs with
  | nil => simp [splitOnChar]
  | cons c rest ih =>
    simp only [List.mem_cons, not_or] at h
    have hne : (c == sep) = false := by
      simp only [beq_eq_false_iff_ne, ne_eq]
      exact fun hc => h.1 hc.symm
    have hrest := ih h.2
    simp only [List.cons_append, splitOnChar, hne, List.append_eq]
    rw [hrest]
    simp

theorem indexOfFromAux_some (pat : Str) :
    ∀ (s : Str) (i j : Nat), indexOfFromAux pat s i = some j →
      i ≤ j ∧ strStartsWith (s.drop (j - i)) pat = true ∧
        ∀ k, i ≤ k → k < j → strStartsWith (s.drop (k - i)) pat = false := by
  intro s
  induction s with
  | nil =>
    intro i j h
    simp only [indexOfFromAux] at h
    split at h
    · next hc =>
      injection h with h'
      subst h'
      exact ⟨le_refl _, by simpa using hc, fun k hk1 hk2 => absurd hk2 (by omega)⟩
    · exact absurd h (by simp)
  | cons c t ih =>
    intro i j h
    simp only [indexOfFromAux] at h
    split at h
    · next hc =>
      injection h with h'
      subst h'
      exact ⟨le_refl _, by simpa using hc, fun k hk1 hk2 => absurd hk2 (by omega)⟩
    · next hc =>
      obtain ⟨h1, h2, h3⟩ := ih (i + 1) j h
      have hji : i + 1 ≤ j := h1
      refine ⟨by omega, ?_, ?_⟩
      · have hd : (c :: t).drop (j - i) = t.drop (j - (i + 1)) := by
          have : j - i = (j - (i + 1)) + 1 := by omega
          rw [this, List.drop_succ_cons]
        rw [hd]
        exact h2
      · intro k hk1 hk2
        rcases Nat.eq_or_lt_of_le hk1 with heq | hlt
        · subst heq
          simpa [Nat.sub_self] using eq_false_of_ne_true hc
        · have hd : (c :: t).drop (k - i) = t.drop (k - (i + 1)) := by
            have : k - i = (k - (i + 1)) + 1 := by omega
            rw [this, List.drop_succ_cons]
          rw [hd]
          exact h3 k (by omega) hk2

/-! ## Helper lemmas: sorting -/

theorem insertSorted_perm (le : Str → Str → Bool) (x : Str) (ys : List Str) :
    List.Perm (insertSorted le x ys) (x :: ys) := by
  induction ys with
  | nil => simp [insertSorted]
  | cons y ys ih =>
    simp only [insertSorted]
    split
    · exact (ih.cons y).trans (List.Perm.swap x y ys)
    · exact List.Perm.refl _

theorem sortStrs_perm (le : Str → Str → Bool) (xs : List Str) :
    List.Perm (sortStrs le xs) xs := by
  induction xs with
  | nil => simp [sortStrs]
  | cons x xs ih => exact (insertSorted_perm le x (sortStrs le xs)).trans (ih.cons x)

theorem mem_sortStrs (le : Str → Str → Bool) (xs : List Str) (a : Str) :
    a ∈ sortStrs le xs ↔ a ∈ xs :=
  (sortStrs_perm le xs).mem_iff

theorem mem_insertSorted (le : Str → Str → Bool) (x a : Str) (ys : List Str) :
    a ∈ insertSorted le x ys ↔ a = x ∨ a ∈ ys := by
  rw [(insertSorted_perm le x ys).mem_iff]
  simp

theorem insertSorted_sorted (le : Str → Str → Bool)
    (htot : ∀ a b, le a b = true ∨ le b a = true)
    (htr : ∀ a b c, le a b = true → le b c = true → le a c = true)
    (x : Str) (ys : List Str) (h : ys.Sorted (fun a b => le a b = true)) :
    (insertSorted le x ys).Sorted (fun a b => le a b = true) := by
  induction ys with
  | nil => simp [insertSorted]
  | cons y ys ih =>
    rcases List.sorted_cons.mp h with ⟨hy, hys⟩
    simp only [insertSorted]
    split
    · next hle =>
      refine List.sorted_cons.mpr ⟨?_, ih hys⟩
      intro b hb
      rcases (mem_insertSorted le x b ys).mp hb with hbx | hby
      · subst hbx; exact hle
      · exact hy b hby
    · next hle =>
      have hxy : le x y = true := by
        rcases htot x y with hh | hh
        · exact hh
        · exact absurd hh hle
      refine List.sorted_cons.mpr ⟨?_, h⟩
      intro b hb
      rcases List.mem_cons.mp hb with hby | hbys
      · subst hby; exact hxy
      · exact htr x y b hxy (hy b hbys)

theorem sortStrs_sorted (le : Str → Str → Bool)
    (htot : ∀ a b, le a b = true ∨ le b a = true)
    (htr : ∀ a b c, le a b = true → le b c = true → le a c = true)
    (xs : List Str) :
    (sortStrs le xs).Sorted (fun a b => le a b = true) := by
  induction xs with
  | nil => simp [sortStrs]
  | cons x xs ih => exact insertSorted_sorted le htot htr x (sortStrs le xs) ih

/-! ## Helper lemmas: the extractor -/

theorem mkFinal_readWhen (st : ExtractState) : (mkFinal st).readWhen = st.readWhen := by
  unfold mkFinal
  split
  · rfl
  · simp only
    split
    · rfl
    · rfl

theorem mkFinal_error_summary (st : ExtractState) (e : ExtractError)
    (h : (mkFinal st).error = some e) : (mkFinal st).summary = none := by
  unfold mkFinal at h ⊢
  split at h
  · rfl
  · simp only at h ⊢
    split at h
    · next heq => simp [heq]
    · exact absurd h (by simp)

theorem extractMetadata_cases (c : Str) :
    (strStartsWith c threeDashes = false ∧
       extractMetadata c = ⟨none, [], some .missingFrontMatter⟩ ∧
       frontMatterLines c = none) ∨
    (strStartsWith c threeDashes = true ∧ indexOfFrom nlDashes c 3 = none ∧
       extractMetadata c = ⟨none, [], some .unterminatedFrontMatter⟩ ∧
       frontMatterLines c = none) ∨
    (∃ endIndex, strStartsWith c threeDashes = true ∧
       indexOfFrom nlDashes c 3 = some endIndex ∧
       extractMetadata c =
         mkFinal (processLines parseInlineList
           (splitLines (jsTrim ((c.take endIndex).drop 3))) initState) ∧
       frontMatterLines c =
         some (splitLines (jsTrim ((c.take endIndex).drop 3)))) := by
  by_cases h1 : strStartsWith c threeDashes = true
  · cases h2 : indexOfFrom nlDashes c 3 with
    | none =>
      refine Or.inr (Or.inl ⟨h1, rfl, ?_, ?_⟩)
      · unfold extractMetadata
        simp [h1, h2]
      · unfold frontMatterLines
        simp [h1, h2]
    | some e =>
      refine Or.inr (Or.inr ⟨e, h1, rfl, ?_, ?_⟩)
      · unfold extractMetadata
        simp [h1, h2]
      · unfold frontMatterLines
        simp [h1, h2]
  · have h1f : strStartsWith c threeDashes = false := eq_false_of_ne_true h1
    refine Or.inl ⟨h1f, ?_, ?_⟩
    · unfold extractMetadata
      simp [h1f]
    · unfold frontMatterLines
      simp [h1f]

theorem stepLine_of_summary (p : Str → Option (List JsValue)) (s : ExtractState) (l : Str)
    (h : isSummaryLine l = true) :
    stepLine p s l = { s with summaryLine := some (jsTrim l), collecting := false } := by
  unfold isSummaryLine at h
  unfold stepLine
  simp [h]

theorem stepLine_summaryLine_of_not (p : Str → Option (List JsValue)) (s : ExtractState)
    (l : Str) (h : isSummaryLine l = false) :
    (stepLine p s l).summaryLine = s.summaryLine := by
  unfold isSummaryLine at h
  unfold stepLine
  simp only [h, Bool.false_eq_true, if_false]
  repeat' split
  all_goals rfl

theorem processLines_no_summary (p : Str → Option (List JsValue)) :
    ∀ (ls : List Str) (s : ExtractState), ls.filter isSummaryLine = [] →
      (processLines p ls s).summaryLine = s.summaryLine := by
  intro ls
  induction ls with
  | nil => intro s _; rfl
  | cons l ls ih =>
    intro s h
    rw [List.filter_cons] at h
    by_cases hl : isSummaryLine l
    · simp [hl] at h
    · have hl' : isSummaryLine l = false := eq_false_of_ne_true hl
      simp only [hl', Bool.false_eq_true, if_false] at h
      simp only [processLines]
      rw [ih (stepLine p s l) h, stepLine_summaryLine_of_not p s l hl']

theorem processLines_summary_last (p : Str → Option (List JsValue)) :
    ∀ (ls : List Str) (s : ExtractState) (h : ls.filter isSummaryLine ≠ []),
      (processLines p ls s).summaryLine =
        some (jsTrim ((ls.filter isSummaryLine).getLast h)) := by
  intro ls
  induction ls with
  | nil => intro s h; simp at h
  | cons l ls ih =>
    intro s h
    by_cases hl : isSummaryLine l
    · have hf : (l :: ls).filter isSummaryLine = l :: ls.filter isSummaryLine := by
        simp [List.filter_cons, hl]
      by_cases hrest : ls.filter isSummaryLine = []
      · have hstep := stepLine_of_summary p s l hl
        have hrun := processLines_no_summary p ls (stepLine p s l) hrest
        rw [hstep] at hrun
        have hone : (l :: ls).filter isSummaryLine = [l] := by rw [hf, hrest]
        simp only [processLines, hstep]
        rw [hrun]
        simp [hone]
      · have hlast : ((l :: ls).filter isSummaryLine).getLast h =
            (ls.filter isSummaryLine).getLast hrest := by
          simp only [hf]
          exact List.getLast_cons hrest
        simp only [processLines]
        rw [ih (stepLine p s l) hrest, hlast]
    · have hl' : isSummaryLine l = false := eq_false_of_ne_true hl
      have hf : (l :: ls).filter isSummaryLine = ls.filter isSummaryLine := by
        simp [List.filter_cons, hl']
      have hrest : ls.filter isSummaryLine ≠ [] := by
        intro hc
        exact h (by rw [hf, hc])
      have hlast : ((l :: ls).filter isSummaryLine).getLast h =
          (ls.filter isSummaryLine).getLast hrest := by
        congr 1
      simp only [processLines]
      rw [ih (stepLine p s l) hrest, hlast]

theorem rwkey_not_summary (t : Str) (h : strStartsWith t readWhenKey = true) :
    strStartsWith t summaryKey = false := by
  cases t with
  | nil => simp [strStartsWith, readWhenKey] at h
  | cons c rest =>
    simp only [readWhenKey, strStartsWith, Bool.and_eq_true, beq_iff_eq] at h
    obtain ⟨hc, -⟩ := h
    subst hc
    simp [summaryKey, strStartsWith]

theorem stepLine_indep (p : Str → Option (List JsValue)) (l : Str) (s₁ s₂ : ExtractState)
    (h1 : s₁.summaryLine = s₂.summaryLine) (h2 : s₁.collecting = s₂.collecting) :
    (stepLine p s₁ l).summaryLine = (stepLine p s₂ l).summaryLine ∧
      (stepLine p s₁ l).collecting = (stepLine p s₂ l).collecting := by
  unfold stepLine
  by_cases hs : strStartsWith (jsTrim l) summaryKey = true
  · simp [hs]
  · have hs' := eq_false_of_ne_true hs
    by_cases hr : strStartsWith (jsTrim l) readWhenKey = true
    · simp only [hs', Bool.false_eq_true, if_false, hr, if_true]
      split
      · split <;> simp [h1]
      · simp [h1]
    · have hr' := eq_false_of_ne_true hr
      simp only [hs', hr', Bool.false_eq_true, if_false]
      rw [h2]
      by_cases hc : s₂.collecting = true
      · simp only [hc, if_true]
        split
        · split <;> simp [h1, h2]
        · split <;> simp [h1, h2]
      · have hc' := eq_false_of_ne_true hc
        simp [hc', h1, h2]

theorem processLines_indep (p : Str → Option (List JsValue)) :
    ∀ (ls : List Str) (s₁ s₂ : ExtractState),
      s₁.summaryLine = s₂.summaryLine → s₁.collecting = s₂.collecting →
      (processLines p ls s₁).summaryLine = (processLines p ls s₂).summaryLine ∧
        (processLines p ls s₁).collecting = (processLines p ls s₂).collecting := by
  intro ls
  induction ls with
  | nil => intro s₁ s₂ h1 h2; exact ⟨h1, h2⟩
  | cons l ls ih =>
    intro s₁ s₂ h1 h2
    have hstep := stepLine_indep p l s₁ s₂ h1 h2
    exact ih (stepLine p s₁ l) (stepLine p s₂ l) hstep.1 hstep.2

/-! ## Helper lemmas: summary normalisation -/

theorem jsIsQuote_not_space (c : Char) (h : jsIsQuote c = true) : jsIsSpace c = false := by
  simp only [jsIsQuote, Bool.or_eq_true, beq_iff_eq] at h
  rcases h with h | h <;> subst h <;> decide

theorem dropWhile_of_all_false (pr : Char → Bool) (s : Str)
    (h : ∀ c ∈ s, pr c = false) : s.dropWhile pr = s := by
  cases s with
  | nil => rfl
  | cons c t =>
    rw [List.dropWhile_cons]
    simp [h c (by simp)]

theorem jsTrim_of_no_ws (s : Str) (h : ∀ c ∈ s, jsIsSpace c = false) : jsTrim s = s := by
  unfold jsTrim
  rw [dropWhile_of_all_false jsIsSpace s h]
  rw [dropWhile_of_all_false jsIsSpace s.reverse (fun c hc => h c (List.mem_reverse.mp hc))]
  exact List.reverse_reverse s

theorem collapseWsAux_of_no_ws (s : Str) (h : ∀ c ∈ s, jsIsSpace c = false) :
    ∀ b, collapseWsAux b s = s := by
  induction s with
  | nil => intro b; rfl
  | cons c t ih =>
    intro b
    simp only [collapseWsAux, h c (by simp), Bool.false_eq_true, if_false]
    rw [ih (fun d hd => h d (by simp [hd])) false]

theorem collapseWs_of_no_ws (s : Str) (h : ∀ c ∈ s, jsIsSpace c = false) :
    collapseWs s = s := collapseWsAux_of_no_ws s h false

theorem dropTrailingQuote_concat (mid : Str) (b : Char) (hb : jsIsQuote b = true) :
    dropTrailingQuote (mid ++ [b]) = mid := by
  unfold dropTrailingQuote
  rw [List.reverse_append]
  simp only [List.reverse_cons, List.reverse_nil, List.nil_append, List.singleton_append]
  simp only [dropLeadingQuote, hb, if_true]
  exact List.reverse_reverse mid

theorem stripEdgeQuotes_all_quotes (v : Str) (h : ∀ c ∈ v, jsIsQuote c = true) :
    stripEdgeQuotes v = (v.drop 1).dropLast := by
  cases v with
  | nil => rfl
  | cons a t =>
    unfold stripEdgeQuotes
    simp only [dropLeadingQuote, h a (by simp), if_true, List.drop_succ_cons, List.drop_zero]
    cases ht : t.eq_nil_or_concat with
    | inl hnil => subst hnil; rfl
    | inr hconc =>
      obtain ⟨mid, b, rfl⟩ := hconc
      rw [List.concat_eq_append]
      rw [dropTrailingQuote_concat mid b (h b (by simp [List.concat_eq_append]))]
      simp

/-! ## Helper lemmas: the tree walker -/

theorem excluded_not_md (n : Str) (h : strEndsWith n mdSuffix = true) :
    n ∉ EXCLUDED_DIRS := by
  intro hmem
  simp only [EXCLUDED_DIRS, List.mem_cons, List.mem_singleton, List.not_mem_nil] at hmem
  rcases hmem with hq | hq | hq
  · subst hq; exact absurd h (by decide)
  · subst hq; exact absurd h (by decide)
  · exact hq

mutual

theorem walkEntry_segsOk (le : Str → Str → Bool) (pfx : Str) (e : FsEntry)
    (hv : entryValid e = true) (p : Str) (hp : p ∈ walkEntry le pfx e) :
    ∃ q, p = pfx ++ q ∧ ∀ seg ∈ splitOnChar slashC q,
      strStartsWith seg ['.'] = false ∧ seg ∉ EXCLUDED_DIRS := by
  cases e with
  | file name =>
    simp only [walkEntry] at hp
    split at hp
    · simp at hp
    · next hhid =>
      split at hp
      · next hmd =>
        simp only [List.mem_singleton] at hp
        subst hp
        refine ⟨name, rfl, ?_⟩
        intro seg hseg
        have hnok : slashC ∉ name := by
          have hv' : nameOk name = true := hv
          exact of_decide_eq_true hv'
        rw [splitOnChar_no_sep slashC name hnok, List.mem_singleton] at hseg
        rw [hseg]
        exact ⟨eq_false_of_ne_true hhid, excluded_not_md name hmd⟩
      · simp at hp
  | dir name children =>
    simp only [walkEntry] at hp
    split at hp
    · simp at hp
    · next hhid =>
      split at hp
      · simp at hp
      · next hexc =>
        rw [mem_sortStrs] at hp
        have hv' : nameOk name = true ∧ childrenValid children = true := by
          simpa [entryValid, Bool.and_eq_true] using hv
        obtain ⟨q', hq', hgood⟩ :=
          walkChildren_segsOk le (pfx ++ name ++ [slashC]) children hv'.2 p hp
        refine ⟨name ++ slashC :: q', by rw [hq']; simp, ?_⟩
        intro seg hseg
        have hnok : slashC ∉ name := of_decide_eq_true hv'.1
        rw [splitOnChar_append_sep slashC name q' hnok] at hseg
        rcases List.mem_cons.mp hseg with h | h
        · subst h; exact ⟨eq_false_of_ne_true hhid, hexc⟩
        · exact hgood seg h
  | otherEntry name => simp [walkEntry] at hp

theorem walkChildren_segsOk (le : Str → Str → Bool) (pfx : Str) (es : List FsEntry)
    (hv : childrenValid es = true) (p : Str) (hp : p ∈ walkChildren le pfx es) :
    ∃ q, p = pfx ++ q ∧ ∀ seg ∈ splitOnChar slashC q,
      strStartsWith seg ['.'] = false ∧ seg ∉ EXCLUDED_DIRS := by
  cases es with
  | nil => simp [walkChildren] at hp
  | cons e es =>
    simp only [walkChildren, List.mem_append] at hp
    have hv' : entryValid e = true ∧ childrenValid es = true := by
      simpa [childrenValid, Bool.and_eq_true] using hv
    rcases hp with h | h
    · exact walkEntry_segsOk le pfx e hv'.1 p h
    · exact walkChildren_segsOk le pfx es hv'.2 p h

end

mutual

theorem walkEntry_perm (le : Str → Str → Bool) (pfx : Str) (e : FsEntry) :
    List.Perm (walkEntry le pfx e) (specCollectEntry pfx e) := by
  cases e with
  | file name =>
    unfold walkEntry specCollectEntry
    exact List.Perm.refl _
  | dir name children =>
    unfold walkEntry specCollectEntry
    by_cases hhid : strStartsWith name ['.'] = true
    · simp only [hhid, if_true]
      exact List.Perm.refl _
    · by_cases hexc : name ∈ EXCLUDED_DIRS
      · simp only [eq_false_of_ne_true hhid, Bool.false_eq_true, if_false, if_pos hexc]
        exact List.Perm.refl _
      · simp only [eq_false_of_ne_true hhid, Bool.false_eq_true, if_false, if_neg hexc]
        exact (sortStrs_perm le _).trans
          (walkChildren_perm le (pfx ++ name ++ [slashC]) children)
  | otherEntry name => exact List.Perm.refl _

theorem walkChildren_perm (le : Str → Str → Bool) (pfx : Str) (es : List FsEntry) :
    List.Perm (walkChildren le pfx es) (specCollectChildren pfx es) := by
  cases es with
  | nil => exact List.Perm.refl _
  | cons e es =>
    unfold walkChildren specCollectChildren
    exact (walkEntry_perm le pfx e).append (walkChildren_perm le pfx es)

end

/-! ## Helper lemmas: the directory resolver -/

theorem commonPrefixLen_le_left (a b : List Str) : commonPrefixLen a b ≤ a.length := by
  induction a generalizing b with
  | nil => simp [commonPrefixLen]
  | cons x xs ih =>
    cases b with
    | nil => simp [commonPrefixLen]
    | cons y ys =>
      simp only [commonPrefixLen]
      split
      · simpa using ih ys
      · simp

theorem commonPrefixLen_full (a : List Str) :
    ∀ b, commonPrefixLen a b = a.length → a <+: b := by
  induction a with
  | nil => intro b _; exact List.nil_prefix
  | cons x xs ih =>
    intro b h
    cases b with
    | nil => simp [commonPrefixLen] at h
    | cons y ys =>
      simp only [commonPrefixLen] at h
      split at h
      · next hxy =>
        subst hxy
        simp only [List.length_cons, Nat.add_right_cancel_iff] at h
        exact (List.cons_prefix_cons).mpr ⟨rfl, ih ys h⟩
      · simp at h

theorem strStartsWith_self (s : Str) : strStartsWith s s = true := by
  have := strStartsWith_append s []
  rwa [List.append_nil] at this

theorem joinSep_cons_starts (sep : Str) (s : Str) (rest : List Str) :
    strStartsWith (joinSep sep (s :: rest)) s = true := by
  cases rest with
  | nil => exact strStartsWith_self s
  | cons r rs =>
    show strStartsWith (s ++ sep ++ joinSep sep (r :: rs)) s = true
    rw [List.append_assoc]
    exact strStartsWith_append s _

theorem strStartsWith_cons_ne_nil (r : Str) (c : Char) (p : Str)
    (h : strStartsWith r (c :: p) = true) : r ≠ [] := by
  cases r with
  | nil => simp [strStartsWith] at h
  | cons a t => simp

theorem isInsideRepoRoot_imp (root cwd : List Str)
    (h : isInsideRepoRoot root cwd = true) :
    cwd = root ∨ (root <+: cwd ∧ cwd ≠ root) := by
  unfold isInsideRepoRoot relativePath relativeSegs at h
  by_cases hz : root.length - commonPrefixLen root cwd = 0
  · have hle := commonPrefixLen_le_left root cwd
    have hkeq : commonPrefixLen root cwd = root.length := by omega
    have hpre : root <+: cwd := commonPrefixLen_full root cwd hkeq
    cases hd : cwd.drop (commonPrefixLen root cwd) with
    | nil =>
      left
      have hlen : cwd.length ≤ commonPrefixLen root cwd := by
        rw [← List.drop_eq_nil_iff]
        exact hd
      have hlen2 : root.length = cwd.length := by
        have := hpre.length_le
        omega
      exact (List.IsPrefix.eq_of_length hpre hlen2).symm
    | cons d ds =>
      right
      refine ⟨hpre, ?_⟩
      intro hceq
      subst hceq
      rw [hkeq, List.drop_length] at hd
      exact absurd hd (by simp)
  · exfalso
    obtain ⟨m, hm⟩ : ∃ m, root.length - commonPrefixLen root cwd = m + 1 :=
      ⟨root.length - commonPrefixLen root cwd - 1, by omega⟩
    rw [hm, List.replicate_succ, List.cons_append] at h
    have hstart := joinSep_cons_starts [slashC] upSeg
      (List.replicate m upSeg ++ cwd.drop (commonPrefixLen root cwd))
    have hne := strStartsWith_cons_ne_nil _ '.' ['.'] hstart
    simp [hstart, List.isEmpty_iff] at h
    exact hne h

/-! ## The byteLe comparison is a linear order -/

theorem byteLe_total (a b : Str) : byteLe a b = true ∨ byteLe b a = true := by
  simp only [byteLe, decide_eq_true_eq]
  exact le_total a b

theorem byteLe_trans (a b c : Str) (h1 : byteLe a b = true) (h2 : byteLe b c = true) :
    byteLe a c = true := by
  simp only [byteLe, decide_eq_true_eq] at h1 h2 ⊢
  exact le_trans h1 h2

theorem byteLe_antisymm (a b : Str) (h1 : byteLe a b = true) (h2 : byteLe b a = true) :
    a = b := by
  simp only [byteLe, decide_eq_true_eq] at h1 h2
  exact le_antisymm h1 h2

/-! ## Bridging lemma from delimiter parsing to the line loop -/

theorem extractMetadata_of_lines (c : Str) (ls : List Str)
    (hl : frontMatterLines c = some ls) :
    extractMetadata c = mkFinal (processLines parseInlineList ls initState) := by
  rcases extractMetadata_cases c with ⟨h1, h2, h3⟩ | ⟨h1, h2, h3, h4⟩ | ⟨e, h1, h2, h3, h4⟩
  · rw [h3] at hl; cases hl
  · rw [h4] at hl; cases hl
  · rw [h4] at hl
    injection hl with hls
    rw [h3, hls]

/-! ## Claim C2 -/

/-- C2, counterexample: on the round-trip block of the spec the
multi-line hint keeps its surrounding double quotes, so the hint list
is not the claimed one (the source trims a hint line but never strips
its quotes). -/
theorem c2_counterexample :
    (extractMetadata c2content).readWhen ≠ ["auth changes".toList, "tests".toList] ∧
      (extractMetadata c2content).readWhen =
        [dquote :: ("auth changes".toList ++ [dquote]), "tests".toList] := by
  decide

/-- C2, amended: the round-trip block extracts summary Handles OAuth
flows and the hints in order, with the double quotes of the first hint
kept verbatim, and no failure. -/
theorem c2_amended_roundtrip :
    extractMetadata c2content =
      { summary := some "Handles OAuth flows".toList,
        readWhen := [dquote :: ("auth changes".toList ++ [dquote]), "tests".toList],
        error := none } := by
  decide

/-! ## Claim C8 -/

/-- C8: an inline list with single-quoted elements inside a
well-delimited block yields the two hints in order, after the
single-to-double quote normalisation and per-element trimming, with
the summary extracted and no failure. -/
theorem c8_inline_list :
    extractMetadata c8content =
      { summary := some "ok".toList,
        readWhen := ["a".toList, "b".toList],
        error := none } := by
  decide

/-! ## Claim C4 -/

/-- C4, counterexample: a content whose first line is four dashes does
not begin with a line consisting of exactly three dashes, yet
extraction does not fail with the missing-front-matter reason (the
source only tests the three-character prefix). -/
theorem c4_counterexample :
    beginsWithExactDashLine c4badContent = false ∧
      extractMetadata c4badContent =
        { summary := some ['x'], readWhen := [], error := none } := by
  decide

/-- C4, amended: extraction fails with missing-front-matter exactly
when the content does not start with the three characters of the
delimiter (regardless of the rest of the first line); when it does,
the closing delimiter is the first newline-then-three-dashes
occurrence at an index of at least three, and its absence yields
unterminated-front-matter. -/
theorem c4_amended_delimiters (c : Str) :
    ((extractMetadata c).error = some .missingFrontMatter ↔
        strStartsWith c threeDashes = false) ∧
      (strStartsWith c threeDashes = true →
        (((extractMetadata c).error = some .unterminatedFrontMatter ↔
            indexOfFrom nlDashes c 3 = none) ∧
          ∀ i, indexOfFrom nlDashes c 3 = some i →
            3 ≤ i ∧ strStartsWith (c.drop i) nlDashes = true ∧
              ∀ j, 3 ≤ j → j < i → strStartsWith (c.drop j) nlDashes = false)) := by
  rcases extractMetadata_cases c with ⟨h1, h2, h3⟩ | ⟨h1, h2, h3, h4⟩ | ⟨e, h1, h2, h3, h4⟩
  · constructor
    · rw [h2]
      simp [h1]
    · intro hc
      rw [h1] at hc
      exact absurd hc (by simp)
  · constructor
    · rw [h3]
      simp [h1]
    · intro _
      constructor
      · rw [h3]
        simp [h2]
      · intro i hi
        rw [h2] at hi
        cases hi
  · have herr : (extractMetadata c).error ≠ some .missingFrontMatter ∧
        (extractMetadata c).error ≠ some .unterminatedFrontMatter := by
      rw [h3]
      unfold mkFinal
      split
      · simp
      · simp only
        split <;> simp
    constructor
    · constructor
      · intro hx
        exact absurd hx herr.1
      · intro hx
        rw [h1] at hx
        exact absurd hx (by simp)
    · intro _
      constructor
      · constructor
        · intro hx
          exact absurd hx herr.2
        · intro hx
          rw [h2] at hx
          cases hx
      · intro i hi
        rw [h2] at hi
        injection hi with hie
        subst hie
        unfold indexOfFrom at h2
        obtain ⟨ha, hb, hc⟩ := indexOfFromAux_some nlDashes (c.drop 3) 3 e h2
        refine ⟨ha, ?_, ?_⟩
        · rw [List.drop_drop] at hb
          have heq : 3 + (e - 3) = e := by omega
          rwa [heq] at hb
        · intro j hj1 hj2
          have hres := hc j hj1 hj2
          rw [List.drop_drop] at hres
          have heq : 3 + (j - 3) = j := by omega
          rwa [heq] at hres

/-- C4, witness: the amended dichotomy applied to a content without
the delimiter prefix and to one with an unterminated block. -/
theorem c4_amended_witness :
    (extractMetadata ['x']).error = some .missingFrontMatter ∧
      (extractMetadata (threeDashes ++ [nlC, 'x'])).error =
        some .unterminatedFrontMatter := by
  constructor
  · exact (c4_amended_delimiters ['x']).1.mpr (by decide)
  · exact (((c4_amended_delimiters (threeDashes ++ [nlC, 'x'])).2 (by decide)).1).mpr
      (by decide)

/-! ## Claim C1 -/

/-- C1, counterexample: a file whose extraction fails with the
summary-key-missing reason keeps its collected hint in the returned
result, but the emitted report line for the file shows only the path
and the bracketed reason — the hint appears nowhere in the report. -/
theorem c1_counterexample :
    (extractMetadata c1badContent).error = some .summaryKeyMissing ∧
      (extractMetadata c1badContent).readWhen = ["zq".toList] ∧
      ∀ l ∈ reportFor "doc.md".toList (extractMetadata c1badContent),
        strContains l "zq".toList = false := by
  decide

/-- C1, amended: for every content the hints collected before any
failure are preserved in the returned result (they equal the hints of
the line loop, and are empty for the two delimiter failures where the
loop never ran), but the report for a failing file consists of the
single line carrying the path and the bracketed reason, without the
hints. -/
theorem c1_amended_hints (c : Str) (path : Str) :
    (extractMetadata c).readWhen = collectedHints c ∧
      ∀ e, (extractMetadata c).error = some e →
        reportFor path (extractMetadata c) =
          [path ++ " - [".toList ++ errorMessage e ++ "]".toList] := by
  constructor
  · rcases extractMetadata_cases c with ⟨h1, h2, h3⟩ | ⟨h1, h2, h3, h4⟩ | ⟨e, h1, h2, h3, h4⟩
    · unfold collectedHints
      rw [h3, h2]
    · unfold collectedHints
      rw [h4, h3]
    · unfold collectedHints
      rw [h4, h3, mkFinal_readWhen]
  · intro e he
    have hnone : (extractMetadata c).summary = none := by
      rcases extractMetadata_cases c with ⟨h1, h2, h3⟩ | ⟨h1, h2, h3, h4⟩ | ⟨e2, h1, h2, h3, h4⟩
      · rw [h2]
      · rw [h3]
      · rw [h3] at he ⊢
        exact mkFinal_error_summary _ e he
    unfold reportFor
    rw [hnone, he]
    simp [reasonSuffix, List.append_assoc]

/-- C1, witness: the amended statement applied to the hint-carrying
failing file. -/
theorem c1_amended_witness :
    (extractMetadata c1badContent).readWhen = collectedHints c1badContent ∧
      reportFor "doc.md".toList (extractMetadata c1badContent) =
        ["doc.md - [summary key missing]".toList] := by
  refine ⟨(c1_amended_hints c1badContent "doc.md".toList).1, ?_⟩
  have h := (c1_amended_hints c1badContent "doc.md".toList).2 .summaryKeyMissing (by decide)
  rw [h]
  decide

/-! ## Claim C10 -/

/-- C10: when a well-delimited block holds at least one summary line,
the summary that is normalised and reported comes from the last such
line (the loop overwrites the stored line on every match), and every
summary line also turns hint collecting off. -/
theorem c10_last_summary_wins (c : Str) (ls : List Str)
    (hl : frontMatterLines c = some ls) (hm : ls.filter isSummaryLine ≠ []) :
    ((normalizeSummary (jsTrim ((ls.filter isSummaryLine).getLast hm)) ≠ [] →
        (extractMetadata c).summary =
          some (normalizeSummary (jsTrim ((ls.filter isSummaryLine).getLast hm)))) ∧
      (normalizeSummary (jsTrim ((ls.filter isSummaryLine).getLast hm)) = [] →
        (extractMetadata c).error = some .summaryEmpty)) ∧
      ∀ (p : Str → Option (List JsValue)) (s : ExtractState) (l : Str),
        isSummaryLine l = true →
          (stepLine p s l).collecting = false ∧
            (stepLine p s l).summaryLine = some (jsTrim l) := by
  have hext := extractMetadata_of_lines c ls hl
  have hsl := processLines_summary_last parseInlineList ls initState hm
  refine ⟨⟨?_, ?_⟩, ?_⟩
  · intro hne
    rw [hext]
    unfold mkFinal
    rw [hsl]
    simp only
    rw [if_neg (by simpa [List.isEmpty_iff] using hne)]
  · intro hemp
    rw [hext]
    unfold mkFinal
    rw [hsl]
    simp only
    rw [if_pos (by simpa [List.isEmpty_iff] using hemp)]
  · intro p s l h
    rw [stepLine_of_summary p s l h]
    exact ⟨rfl, rfl⟩

/-- C10, witness: on a block with two summary lines the reported
summary comes from the second, and a summary line resets the
collecting flag. -/
theorem c10_witness :
    (extractMetadata c10content).summary = some "second".toList ∧
      (stepLine parseInlineList
          { summaryLine := none, readWhen := [], collecting := true }
          "summary: s".toList).collecting = false := by
  constructor
  · have h := ((c10_last_summary_wins c10content
      ["summary: first".toList, "summary: second".toList] (by decide) (by decide)).1.1
      (by decide))
    rw [h]
    decide
  · exact ((c10_last_summary_wins c10content
      ["summary: first".toList, "summary: second".toList] (by decide) (by decide)).2
      parseInlineList _ "summary: s".toList (by decide)).1

/-! ## Claim C3 -/

/-- C3, counterexample: a well-delimited block whose summary value is
three double quotes does not fail with the summary-empty reason; the
anchored-quote replace removes only one leading and one trailing
quote, so a single quote survives as the reported summary. -/
theorem c3_counterexample :
    (∀ ch ∈ jsTrim ((jsTrim ("summary: ".toList ++ [dquote, dquote, dquote])).drop
        summaryKey.length), jsIsQuote ch = true) ∧
      extractMetadata c3badContent =
        { summary := some [dquote], readWhen := [], error := none } := by
  decide

/-- C3, amended: for a well-delimited block whose last summary value
consists only of quote characters, extraction fails with summary-empty
exactly when there are at most two of them; with three or more, the
value minus its first and last characters is reported as the summary.
Normalisation strips at most one leading and at most one trailing
quote character, independently and not necessarily as a matching
pair. -/
theorem c3_amended_summary_quotes (c : Str) (ls : List Str)
    (hl : frontMatterLines c = some ls) (hm : ls.filter isSummaryLine ≠ [])
    (hq : ∀ ch ∈ jsTrim ((jsTrim ((ls.filter isSummaryLine).getLast hm)).drop
        summaryKey.length), jsIsQuote ch = true) :
    ((extractMetadata c).error = some .summaryEmpty ↔
        (jsTrim ((jsTrim ((ls.filter isSummaryLine).getLast hm)).drop
          summaryKey.length)).length ≤ 2) ∧
      (2 < (jsTrim ((jsTrim ((ls.filter isSummaryLine).getLast hm)).drop
          summaryKey.length)).length →
        (extractMetadata c).summary =
          some (((jsTrim ((jsTrim ((ls.filter isSummaryLine).getLast hm)).drop
            summaryKey.length)).drop 1).dropLast)) ∧
      ∀ (a b : Char) (mid : Str), jsIsQuote a = true → jsIsQuote b = true →
        stripEdgeQuotes (a :: (mid ++ [b])) = mid := by
  have hext := extractMetadata_of_lines c ls hl
  have hsl := processLines_summary_last parseInlineList ls initState hm
  have hiff : ∀ l : Str, l.isEmpty = true ↔ l.length = 0 := by
    intro l
    cases l <;> simp
  have hnorm : normalizeSummary (jsTrim ((ls.filter isSummaryLine).getLast hm)) =
      ((jsTrim ((jsTrim ((ls.filter isSummaryLine).getLast hm)).drop
        summaryKey.length)).drop 1).dropLast := by
    unfold normalizeSummary
    rw [stripEdgeQuotes_all_quotes _ hq]
    have hsub : ∀ ch ∈ ((jsTrim ((jsTrim ((ls.filter isSummaryLine).getLast hm)).drop
        summaryKey.length)).drop 1).dropLast, jsIsQuote ch = true := by
      intro ch hch
      exact hq ch (List.drop_subset 1 _ (List.dropLast_subset _ hch))
    have hnows : ∀ ch ∈ ((jsTrim ((jsTrim ((ls.filter isSummaryLine).getLast hm)).drop
        summaryKey.length)).drop 1).dropLast, jsIsSpace ch = false :=
      fun ch hch => jsIsQuote_not_space ch (hsub ch hch)
    rw [collapseWs_of_no_ws _ hnows, jsTrim_of_no_ws _ hnows]
  have hlen : (normalizeSummary (jsTrim ((ls.filter isSummaryLine).getLast hm))).length =
      (jsTrim ((jsTrim ((ls.filter isSummaryLine).getLast hm)).drop
        summaryKey.length)).length - 2 := by
    rw [hnorm]
    simp only [List.length_dropLast, List.length_drop]
    omega
  refine ⟨?_, ?_, ?_⟩
  · rw [hext]
    unfold mkFinal
    rw [hsl]
    simp only
    by_cases hemp : (normalizeSummary
        (jsTrim ((ls.filter isSummaryLine).getLast hm))).isEmpty = true
    · rw [if_pos hemp]
      simp only [true_iff]
      have h0 := (hiff _).mp hemp
      omega
    · rw [if_neg hemp]
      constructor
      · intro hx
        exact absurd hx (by simp)
      · intro hle
        exfalso
        apply hemp
        rw [hiff]
        omega
  · intro hgt
    rw [hext]
    unfold mkFinal
    rw [hsl]
    simp only
    rw [if_neg ?hne]
    case hne =>
      intro hemp
      have h0 := (hiff _).mp hemp
      omega
    simp only
    rw [hnorm]
  · intro a b mid ha hb
    unfold stripEdgeQuotes
    simp only [dropLeadingQuote, ha, if_true]
    exact dropTrailingQuote_concat mid b hb

/-- C3, witness: the amended statement applied to a block whose
summary value is two double quotes (failing with summary-empty) and to
a non-matching quote pair around plain text. -/
theorem c3_amended_witness :
    (extractMetadata c3twoQuoteContent).error = some .summaryEmpty ∧
      stripEdgeQuotes (dquote :: ("ab".toList ++ [squote])) = "ab".toList := by
  constructor
  · exact (c3_amended_summary_quotes c3twoQuoteContent
      ["summary: ".toList ++ [dquote, dquote]] (by decide) (by decide) (by decide)).1.mpr
      (by decide)
  · exact (c3_amended_summary_quotes c3twoQuoteContent
      ["summary: ".toList ++ [dquote, dquote]] (by decide) (by decide) (by decide)).2.2
      dquote squote "ab".toList (by decide) (by decide)

/-! ## Claim C5 -/

/-- C5: a read_when line whose inline remainder is a bracketed list on
which the inline parse fails changes nothing but the collecting flag —
no error is raised (the step is total), the hint list keeps exactly
the previously collected hints — and the summary side of the loop
state never depends on the hint list, so summary extraction for the
block is unaffected. -/
theorem c5_malformed_inline_harmless :
    (∀ (s : ExtractState) (l : Str),
        strStartsWith (jsTrim l) readWhenKey = true →
        strStartsWith (jsTrim ((jsTrim l).drop readWhenKey.length)) ['['] = true →
        strEndsWith (jsTrim ((jsTrim l).drop readWhenKey.length)) [']'] = true →
        parseInlineList (jsTrim ((jsTrim l).drop readWhenKey.length)) = none →
        stepLine parseInlineList s l = { s with collecting := true }) ∧
      ∀ (ls : List Str) (s₁ s₂ : ExtractState),
        s₁.summaryLine = s₂.summaryLine → s₁.collecting = s₂.collecting →
        (processLines parseInlineList ls s₁).summaryLine =
          (processLines parseInlineList ls s₂).summaryLine := by
  constructor
  · intro s l h1 h2 h3 h4
    unfold stepLine
    rw [if_neg (by rw [rwkey_not_summary _ h1]; simp)]
    rw [if_pos h1]
    rw [if_pos (by rw [h2, h3]; rfl)]
    rw [h4]
  · intro ls s₁ s₂ h1 h2
    exact (processLines_indep parseInlineList ls s₁ s₂ h1 h2).1

/-- C5, witness: the malformed inline line leaves a previously
collected hint list untouched, and two loop states differing only in
their hint lists give the same summary. -/
theorem c5_witness :
    stepLine parseInlineList
        { summaryLine := none, readWhen := ["prev".toList], collecting := false } c5line =
      { summaryLine := none, readWhen := ["prev".toList], collecting := true } ∧
      (processLines parseInlineList ["summary: s".toList]
          { summaryLine := none, readWhen := [], collecting := false }).summaryLine =
        (processLines parseInlineList ["summary: s".toList]
          { summaryLine := none, readWhen := ["y".toList], collecting := false }).summaryLine := by
  constructor
  · exact c5_malformed_inline_harmless.1 _ c5line (by decide) (by decide) (by decide)
      (by rfl)
  · exact c5_malformed_inline_harmless.2 ["summary: s".toList] _ _ rfl rfl

/-! ## Claim C6 -/

/-- C6: in every valid tree, every path produced by the walker has no
segment starting with a dot and no segment equal to an excluded
directory name, at any depth — hidden entries are skipped even when
their name ends in the markdown suffix, and nothing below an excluded
directory is reported. -/
theorem c6_walk_excludes (le : Str → Str → Bool) (es : List FsEntry)
    (hv : childrenValid es = true) (p : Str) (hp : p ∈ walkMarkdownFiles le es)
    (seg : Str) (hs : seg ∈ splitOnChar slashC p) :
    strStartsWith seg ['.'] = false ∧ seg ∉ EXCLUDED_DIRS := by
  unfold walkMarkdownFiles at hp
  rw [mem_sortStrs] at hp
  obtain ⟨q, hq, hgood⟩ := walkChildren_segsOk le [] es hv p hp
  rw [List.nil_append] at hq
  subst hq
  exact hgood seg hs

/-- C6, witness: the walker applied to the demonstration tree, at the
nested path below the kept directory. -/
theorem c6_witness :
    strStartsWith "a.md".toList ['.'] = false ∧ ("a.md".toList : Str) ∉ EXCLUDED_DIRS := by
  have h := c6_walk_excludes byteLe demoTree (by decide) "sub/a.md".toList (by decide)
    "a.md".toList (by decide)
  exact h

/-! ## Claim C7 -/

/-- C7: for every comparison behaving as a linear order (as the
locale comparison does on distinct paths), the emitted file order of
the walker equals the sort of the traversal-order collected relative
paths; being an equality of pure functions of the tree, the output is
the same on every run over an identical tree. -/
theorem c7_walk_sorted (le : Str → Str → Bool)
    (htot : ∀ a b, le a b = true ∨ le b a = true)
    (htr : ∀ a b c, le a b = true → le b c = true → le a c = true)
    (hanti : ∀ a b, le a b = true → le b a = true → a = b)
    (es : List FsEntry) :
    walkMarkdownFiles le es = sortStrs le (specCollectChildren [] es) := by
  haveI : IsAntisymm Str (fun a b => le a b = true) := ⟨hanti⟩
  exact List.eq_of_perm_of_sorted
    ((sortStrs_perm le _).trans
      ((walkChildren_perm le [] es).trans (sortStrs_perm le _).symm))
    (sortStrs_sorted le htot htr _) (sortStrs_sorted le htot htr _)

/-- C7, witness: the walker output on the demonstration tree equals
the sorted traversal-order collection under the concrete code-point
comparison. -/
theorem c7_witness :
    walkMarkdownFiles byteLe demoTree = sortStrs byteLe (specCollectChildren [] demoTree) :=
  c7_walk_sorted byteLe byteLe_total byteLe_trans byteLe_antisymm demoTree

/-! ## Claim C9 -/

/-- C9: when the earlier resolution steps all miss (no help flag, no
docs or root flag, blank environment variables, and no docs directory
under the current working directory), the resolver either returns the
repository-default docs directory — and then the current working
directory is the repository root or a strict descendant of it, never
an ancestor or a sibling, and that docs directory exists — or falls
through to the fatal error. -/
theorem c9_repo_default (env : ResolveEnv)
    (h1 : "--help".toList ∉ env.args) (h2 : "-h".toList ∉ env.args)
    (h3 : readFlagValue env.args "--docs".toList = none)
    (h4 : readFlagValue env.args "--root".toList = none)
    (h5 : (match env.docsDirEnv with | some r => jsTrim r | none => ([] : Str)) = [])
    (h6 : (match env.docsRootEnv with | some r => jsTrim r | none => ([] : Str)) = [])
    (h7 : env.fsExists (env.cwd ++ [docsSeg]) = false) :
    (resolveDocsDir env = .dirResolved (env.repoRoot ++ [docsSeg]) ∧
        (env.cwd = env.repoRoot ∨ (env.repoRoot <+: env.cwd ∧ env.cwd ≠ env.repoRoot)) ∧
        env.fsExists (env.repoRoot ++ [docsSeg]) = true) ∨
      resolveDocsDir env = .fatalError := by
  have hres : resolveDocsDir env =
      (if isInsideRepoRoot env.repoRoot env.cwd &&
          env.fsExists (env.repoRoot ++ [docsSeg]) then
        ResolveOutcome.dirResolved (env.repoRoot ++ [docsSeg])
      else ResolveOutcome.fatalError) := by
    unfold resolveDocsDir
    rw [if_neg (by intro hor; exact hor.elim h1 h2)]
    rw [h3, h4]
    simp only [h5, h6, List.isEmpty_nil, Bool.not_true, Bool.false_eq_true, if_false,
      h7]
  rw [hres]
  by_cases hc : (isInsideRepoRoot env.repoRoot env.cwd &&
      env.fsExists (env.repoRoot ++ [docsSeg])) = true
  · left
    rw [if_pos hc]
    rw [Bool.and_eq_true] at hc
    rcases hc with ⟨hin, hex⟩
    exact ⟨rfl, isInsideRepoRoot_imp _ _ hin, hex⟩
  · right
    rw [if_neg hc]

/-- C9, witness: the repository-default step applied to an environment
whose working directory lies strictly below the repository root and
whose repository docs directory exists. -/
theorem c9_witness :
    (resolveDocsDir envW = .dirResolved (envW.repoRoot ++ [docsSeg]) ∧
        (envW.cwd = envW.repoRoot ∨ (envW.repoRoot <+: envW.cwd ∧ envW.cwd ≠ envW.repoRoot)) ∧
        envW.fsExists (envW.repoRoot ++ [docsSeg]) = true) ∨
      resolveDocsDir envW = .fatalError :=
  c9_repo_default envW (by decide) (by decide) (by decide) (by decide) (by rfl) (by rfl)
    (by decide)
